import Mathlib

/-!
Shallow embedding of the unified-diff parser of `src/src-tauri/src/diff_parser.rs`
(`parse_range`, `parse_hunk_header`, `parse_unified_diff`), together with
theorems about the parser's documented behaviour.

Machine integers: the Rust code counts lines in `u32`; we model `u32` values
as `Nat` kept below `2 ^ 32`, with the increments of the running line
counters taken modulo `2 ^ 32` (release-profile wrapping semantics).

Strings: the Rust code works on `&str` slices; we model the primitive
string operations (`starts_with`, `strip_prefix`, `rfind`, `find`,
`split_whitespace`, `split_once`, `lines`, `str::parse::<u32>`) as
executable functions on `List Char` / `String`.
-/

namespace GreatReview

/-! ## Data model (structs and enums of `diff_parser.rs`) -/

inductive FileStatus where
  | Added
  | Modified
  | Deleted
  | Renamed
deriving DecidableEq, Repr

inductive LineType where
  | Addition
  | Deletion
  | Context
deriving DecidableEq, Repr

structure DiffLine where
  content : String
  line_type : LineType
  old_line_no : Option Nat
  new_line_no : Option Nat
deriving DecidableEq, Repr

structure DiffHunk where
  header : String
  old_start : Nat
  old_count : Nat
  new_start : Nat
  new_count : Nat
  lines : List DiffLine
deriving DecidableEq, Repr

structure DiffFile where
  path : String
  old_path : Option String
  hunks : List DiffHunk
  status : FileStatus
deriving DecidableEq, Repr

/-! ## String primitives (models of the Rust `str` methods used) -/

def mkStr (cs : List Char) : String := ⟨cs⟩

/-- Model of `str::strip_prefix`: strips `p` from the front, or fails. -/
def stripPre : List Char → List Char → Option (List Char)
  | [], cs => some cs
  | _, [] => none
  | p :: ps, c :: cs => if p = c then stripPre ps cs else none

/-- Model of `str::starts_with` (`s.starts_with p`). -/
def strStarts (s p : String) : Bool := (stripPre p.data s.data).isSome

/-- Model of `str::strip_prefix`, on `String`. -/
def strip? (p s : String) : Option String := (stripPre p.data s.data).map mkStr

/-- `2 ^ 32`, the modulus of `u32` arithmetic. -/
def U32LIM : Nat := 4294967296

/-- Value of a big-endian list of decimal digit characters. -/
def digitsVal (cs : List Char) : Nat := cs.foldl (fun a c => a * 10 + (c.toNat - 48)) 0

/-- Digit-run part of `str::parse::<u32>`: a nonempty run of decimal digits
whose value fits in `u32`. -/
def parseU32digits (t : List Char) : Option Nat :=
  if t ≠ [] ∧ (∀ c ∈ t, c.isDigit = true) ∧ digitsVal t < U32LIM then some (digitsVal t)
  else none

/-- Model of `str::parse::<u32>`: an optional leading `'+'`, then a
nonempty run of decimal digits whose value fits in `u32`. -/
def parseU32 (cs : List Char) : Option Nat :=
  match cs with
  | '+' :: r => parseU32digits r
  | _ => parseU32digits cs

/-- Model of `str::split_once(',')`: split at the first comma, or fail. -/
def splitOnceComma : List Char → Option (List Char × List Char)
  | [] => none
  | c :: cs =>
    if c = ',' then some ([], cs)
    else (splitOnceComma cs).map (fun p => (c :: p.1, p.2))

/-- `parse_range` of `diff_parser.rs`: decode `start[,count]`, defaulting
unparseable fields to 0 and a missing count to 1. -/
def parse_range (range : List Char) : Nat × Nat :=
  match splitOnceComma range with
  | some (s, c) => ((parseU32 s).getD 0, (parseU32 c).getD 0)
  | none => ((parseU32 range).getD 0, 1)

/-- Model of `line.find(" @@")`: the part of the list before the first
occurrence of the three-character pattern `' ', '@', '@'`, or `none`. -/
def beforeAtAt : List Char → Option (List Char)
  | [] => none
  | c :: cs =>
    if (stripPre [' ', '@', '@'] (c :: cs)).isSome then some []
    else (beforeAtAt cs).map (c :: ·)

/-- Model of Rust `char::is_whitespace`: the Unicode `White_Space`
property, i.e. the code points U+0009-U+000D, U+0020, U+0085, U+00A0,
U+1680, U+2000-U+200A, U+2028, U+2029, U+202F, U+205F and U+3000. -/
def rustIsWhitespace (c : Char) : Bool :=
  let n := c.toNat
  if (9 ≤ n ∧ n ≤ 13) ∨ n = 32 ∨ n = 133 ∨ n = 160 ∨ n = 5760 ∨
      (8192 ≤ n ∧ n ≤ 8202) ∨ n = 8232 ∨ n = 8233 ∨ n = 8239 ∨ n = 8287 ∨
      n = 12288 then
    true
  else false

/-- Accumulating worker for `splitWs`. -/
def splitWsAux : List Char → List Char → List (List Char)
  | [], acc => if acc = [] then [] else [acc.reverse]
  | c :: cs, acc =>
    if rustIsWhitespace c then
      if acc = [] then splitWsAux cs [] else acc.reverse :: splitWsAux cs []
    else splitWsAux cs (c :: acc)

/-- Model of `str::split_whitespace` (whitespace per `rustIsWhitespace`,
the Unicode `White_Space` set used by `char::is_whitespace`). -/
def splitWs (cs : List Char) : List (List Char) := splitWsAux cs []

/-- `parse_hunk_header` of `diff_parser.rs`: strip `"@@ "`, cut at the first
`" @@"`, split the range part on whitespace, strip `'-'` / `'+'`, and decode
the two ranges with `parse_range`. -/
def parse_hunk_header (line : String) : Option (Nat × Nat × Nat × Nat) :=
  match stripPre ['@', '@', ' '] line.data with
  | none => none
  | some rest =>
    match beforeAtAt rest with
    | none => none
    | some rangePart =>
      match splitWs rangePart with
      | o :: n :: _ =>
        match stripPre ['-'] o, stripPre ['+'] n with
        | some oldR, some newR =>
          some ((parse_range oldR).1, (parse_range oldR).2,
            (parse_range newR).1, (parse_range newR).2)
        | _, _ => none
      | _ => none

/-- Model of `line.rfind(" b/")` followed by taking `line[pos + 3 ..]`: the
suffix after the last occurrence of `' ', 'b', '/'`, or `none`.  An
occurrence strictly later in the tail wins; otherwise an occurrence at the
head position is used. -/
def afterLastBSep : List Char → Option (List Char)
  | [] => none
  | c :: cs =>
    match afterLastBSep cs with
    | some r => some r
    | none => stripPre [' ', 'b', '/'] (c :: cs)

/-- Path extracted from a `diff --git` boundary line (lines 82–85 of
`diff_parser.rs`): text after the last `" b/"`, or `""` when absent. -/
def extractPath (l : String) : String :=
  match afterLastBSep l.data with
  | some r => mkStr r
  | none => ""

/-- Split a character list at every `'\n'` (model of `str::split('\n')`). -/
def splitNl : List Char → List (List Char)
  | [] => [[]]
  | '\n' :: cs => [] :: splitNl cs
  | c :: cs =>
    match splitNl cs with
    | h :: t => (c :: h) :: t
    | [] => [[c]]

/-- Strip one trailing `'\r'` from a segment, as `str::lines` does to each
chunk that ended with a stripped `'\n'`. -/
def stripCr (seg : List Char) : List Char :=
  match seg.getLast? with
  | some '\r' => seg.dropLast
  | _ => seg

/-- Model of `str::lines`: split on `'\n'`; every segment that was
terminated by a `'\n'` gets one trailing `'\r'` stripped; the final
unterminated segment is kept verbatim, or dropped when empty (the final
line ending is optional). -/
def rustLines (s : String) : List String :=
  let segs := splitNl s.data
  (segs.dropLast.map fun seg => mkStr (stripCr seg)) ++
    (match segs.getLast? with
      | some [] => []
      | some last => [mkStr last]
      | none => [])

/-- The `"\ No newline at end of file"` marker line. -/
def NO_NL : String := "\\ No newline at end of file"

/-! ## The parser (`parse_unified_diff`, split by loop) -/

/-- The inner hunk-body loop (lines 120–164 of `diff_parser.rs`): classify
`+`/`-`/space lines, skip the no-newline marker and unknown shapes, stop
(without consuming) at a file boundary or a new hunk header.  Returns the
produced `DiffLine`s and the unconsumed remainder of the input. -/
def parseHunkBody : List String → Nat → Nat → List DiffLine × List String
  | [], _, _ => ([], [])
  | hline :: rest, oldLine, newLine =>
    if strStarts hline "diff --git " || strStarts hline "@@ " then
      ([], hline :: rest)
    else if hline = NO_NL then
      parseHunkBody rest oldLine newLine
    else
      match hline.data with
      | '+' :: content =>
        let r := parseHunkBody rest oldLine ((newLine + 1) % U32LIM)
        (⟨mkStr content, LineType.Addition, none, some newLine⟩ :: r.1, r.2)
      | '-' :: content =>
        let r := parseHunkBody rest ((oldLine + 1) % U32LIM) newLine
        (⟨mkStr content, LineType.Deletion, some oldLine, none⟩ :: r.1, r.2)
      | ' ' :: content =>
        let r := parseHunkBody rest ((oldLine + 1) % U32LIM) ((newLine + 1) % U32LIM)
        (⟨mkStr content, LineType.Context, some oldLine, some newLine⟩ :: r.1, r.2)
      | _ => parseHunkBody rest oldLine newLine

theorem parseHunkBody_rem_le (ls : List String) (o n : Nat) :
    (parseHunkBody ls o n).2.length ≤ ls.length := by
  induction ls generalizing o n with
  | nil => simp [parseHunkBody]
  | cons hline rest ih =>
    unfold parseHunkBody
    split
    · simp
    · split
      · exact Nat.le_succ_of_le (ih o n)
      · split
        · exact Nat.le_succ_of_le (ih _ _)
        · exact Nat.le_succ_of_le (ih _ _)
        · exact Nat.le_succ_of_le (ih _ _)
        · exact Nat.le_succ_of_le (ih _ _)

/-- The file-metadata loop (lines 90–182 of `diff_parser.rs`): classify
metadata lines, run the hunk-body loop at each valid hunk header, stop
(without consuming) at the next file boundary or at a `Binary files` line.
Returns the finished `DiffFile` and the unconsumed remainder. -/
def parseMeta : List String → String → Option String → FileStatus → DiffFile × List String
  | [], path, op, st => (⟨path, op, [], st⟩, [])
  | l :: rest, path, op, st =>
    if strStarts l "diff --git " then
      (⟨path, op, [], st⟩, l :: rest)
    else if strStarts l "new file mode" then
      parseMeta rest path op FileStatus.Added
    else if strStarts l "deleted file mode" then
      parseMeta rest path op FileStatus.Deleted
    else
      match strip? "rename from " l with
      | some fr => parseMeta rest path (some fr) FileStatus.Renamed
      | none =>
        match strip? "rename to " l with
        | some dest => parseMeta rest dest op st
        | none =>
          if strStarts l "Binary files" then
            (⟨path, op, [], st⟩, l :: rest)
          else if strStarts l "--- " then
            parseMeta rest path op st
          else if strStarts l "+++ " then
            parseMeta rest path op st
          else if strStarts l "@@ " then
            match parse_hunk_header l with
            | some (os, oc, ns, nc) =>
              let hb := parseHunkBody rest os ns
              let fr := parseMeta hb.2 path op st
              ({ fr.1 with hunks := ⟨l, os, oc, ns, nc, hb.1⟩ :: fr.1.hunks }, fr.2)
            | none => parseMeta rest path op st
          else
            parseMeta rest path op st
termination_by ls _ _ _ => ls.length
decreasing_by
  all_goals simp_wf
  all_goals try simp only [List.length_cons]
  all_goals first
    | exact Nat.lt_succ_of_le (parseHunkBody_rem_le _ _ _)
    | exact Nat.lt_succ_self _

theorem parseMeta_rem_le (ls : List String) (path : String) (op : Option String)
    (st : FileStatus) : (parseMeta ls path op st).2.length ≤ ls.length := by
  induction ls, path, op, st using parseMeta.induct
  all_goals rw [parseMeta]
  all_goals simp only [*, if_true, if_false, List.length_cons, List.length_nil]
  all_goals first
    | exact Nat.le_refl _
    | exact Nat.le_succ_of_le (by assumption)
    | exact Nat.le_succ_of_le (Nat.le_trans (by assumption) (parseHunkBody_rem_le _ _ _))

/-- The outer loop (lines 73–193 of `diff_parser.rs`): skip lines until a
`diff --git ` boundary, then run the metadata loop and emit its file. -/
def parseFiles : List String → List DiffFile
  | [] => []
  | l :: rest =>
    if strStarts l "diff --git " then
      let fr := parseMeta rest (extractPath l) none FileStatus.Modified
      fr.1 :: parseFiles fr.2
    else
      parseFiles rest
termination_by ls => ls.length
decreasing_by
  all_goals simp_wf
  all_goals try simp only [List.length_cons]
  all_goals first
    | exact Nat.lt_succ_of_le (parseMeta_rem_le _ _ _ _)
    | exact Nat.lt_succ_self _

/-- `parse_unified_diff` of `diff_parser.rs`. -/
def parse_unified_diff (diff_text : String) : List DiffFile :=
  parseFiles (rustLines diff_text)

/-! ## Helper lemmas about the string primitives -/

theorem stripPre_cons (a : Char) (as cs : List Char) :
    stripPre (a :: as) cs =
      (match cs with
        | [] => none
        | c :: t => if a = c then stripPre as t else none) := by
  cases cs <;> rfl

theorem strStarts_head? (l p : String) (hp : p.data ≠ []) (h : strStarts l p = true) :
    l.data.head? = p.data.head? := by
  unfold strStarts at h
  cases hpd : p.data with
  | nil => exact absurd hpd hp
  | cons a as =>
    rw [hpd] at h
    cases hld : l.data with
    | nil => rw [hld, stripPre_cons] at h; simp at h
    | cons c t =>
      rw [hld, stripPre_cons] at h
      by_cases hac : a = c
      · simp [hac]
      · simp [hac] at h

theorem strStarts_excl (l p q : String) (hp : p.data ≠ []) (hq : q.data ≠ [])
    (hne : p.data.head? ≠ q.data.head?) (h : strStarts l p = true) :
    strStarts l q = false := by
  cases hsq : strStarts l q with
  | false => rfl
  | true =>
    have h1 := strStarts_head? l p hp h
    have h2 := strStarts_head? l q hq hsq
    exact absurd (h1 ▸ h2 ▸ rfl) hne

theorem strip?_none_iff (p s : String) : strip? p s = none ↔ strStarts s p = false := by
  unfold strip? strStarts
  cases stripPre p.data s.data <;> simp

/-! ## Invariants of the hunk-body loop -/

/-- A line at which the hunk-body loop stops without consuming it. -/
def stopTok (l : String) : Bool := strStarts l "diff --git " || strStarts l "@@ "

/-- The old-side line numbers of a hunk body: `old_line_no` over
Deletion/Context lines, in order. -/
def oldNos (dls : List DiffLine) : List (Option Nat) :=
  (dls.filter fun dl =>
    decide (dl.line_type = LineType.Deletion ∨ dl.line_type = LineType.Context)).map
    DiffLine.old_line_no

/-- The new-side line numbers of a hunk body: `new_line_no` over
Addition/Context lines, in order. -/
def newNos (dls : List DiffLine) : List (Option Nat) :=
  (dls.filter fun dl =>
    decide (dl.line_type = LineType.Addition ∨ dl.line_type = LineType.Context)).map
    DiffLine.new_line_no

/-- The length-`m` progression `s, s+1, s+2, ...` taken modulo `2 ^ 32`. -/
def progFrom (s m : Nat) : List (Option Nat) :=
  (List.range m).map fun k => some ((s + k) % U32LIM)

theorem progFrom_length (s m : Nat) : (progFrom s m).length = m := by
  simp [progFrom]

theorem progFrom_succ (s m : Nat) (hs : s < U32LIM) :
    progFrom s (m + 1) = some s :: progFrom ((s + 1) % U32LIM) m := by
  unfold progFrom
  rw [List.range_succ_eq_map, List.map_cons, List.map_map]
  refine congrArg₂ _ (by simp [Nat.mod_eq_of_lt hs]) ?_
  refine List.map_congr_left fun k _ => ?_
  simp only [Function.comp_apply, Option.some.injEq]
  rw [Nat.mod_add_mod]
  exact congrArg (fun x => x % U32LIM) (by omega)

theorem parseHunkBody_pattern (ls : List String) (o n : Nat) :
    ∀ dl ∈ (parseHunkBody ls o n).1,
      (dl.line_type = LineType.Addition →
        dl.old_line_no = none ∧ dl.new_line_no.isSome = true) ∧
      (dl.line_type = LineType.Deletion →
        dl.old_line_no.isSome = true ∧ dl.new_line_no = none) ∧
      (dl.line_type = LineType.Context →
        dl.old_line_no.isSome = true ∧ dl.new_line_no.isSome = true) := by
  induction ls generalizing o n with
  | nil => intro dl hdl; simp [parseHunkBody] at hdl
  | cons hline rest ih =>
    intro dl hdl
    rw [parseHunkBody] at hdl
    split at hdl
    · simp at hdl
    · split at hdl
      · exact ih o n dl hdl
      · split at hdl
        · rcases List.mem_cons.mp hdl with h | h
          · subst h
            exact ⟨fun _ => ⟨rfl, rfl⟩,
              ⟨fun h => LineType.noConfusion h, fun h => LineType.noConfusion h⟩⟩
          · exact ih _ _ dl h
        · rcases List.mem_cons.mp hdl with h | h
          · subst h
            exact ⟨fun h => LineType.noConfusion h,
              ⟨fun _ => ⟨rfl, rfl⟩, fun h => LineType.noConfusion h⟩⟩
          · exact ih _ _ dl h
        · rcases List.mem_cons.mp hdl with h | h
          · subst h
            exact ⟨fun h => LineType.noConfusion h,
              ⟨fun h => LineType.noConfusion h, fun _ => ⟨rfl, rfl⟩⟩⟩
          · exact ih _ _ dl h
        · exact ih _ _ dl hdl

theorem parseHunkBody_countB (ls : List String) (o n : Nat) :
    ((parseHunkBody ls o n).2.countP fun l => strStarts l "diff --git ") =
      ls.countP fun l => strStarts l "diff --git " := by
  induction ls generalizing o n with
  | nil => simp [parseHunkBody]
  | cons hline rest ih =>
    rw [parseHunkBody]
    split
    · rfl
    · rename_i hstop
      have hnb : strStarts hline "diff --git " = false := by
        simp only [Bool.or_eq_true, not_or, Bool.not_eq_true] at hstop
        exact hstop.1
      split
      · rw [ih o n, List.countP_cons, hnb]
        simp
      · split <;>
          · rw [List.countP_cons, hnb]
            simp only [Bool.false_eq_true, if_false, Nat.add_zero]
            apply ih

theorem parseHunkBody_append (ls ls₂ : List String) (l : String) (o n : Nat)
    (hl : stopTok l = true) :
    parseHunkBody (ls ++ l :: ls₂) o n =
      ((parseHunkBody ls o n).1, (parseHunkBody ls o n).2 ++ l :: ls₂) := by
  induction ls generalizing o n with
  | nil =>
    simp only [List.nil_append]
    rw [parseHunkBody, parseHunkBody]
    unfold stopTok at hl
    simp [hl]
  | cons hline rest ih =>
    rw [List.cons_append, parseHunkBody, parseHunkBody]
    split
    · rfl
    · split
      · exact ih o n
      · split <;> simp [ih]

theorem parseHunkBody_prog (ls : List String) (o n : Nat)
    (ho : o < U32LIM) (hn : n < U32LIM) :
    ∃ mo mn, oldNos (parseHunkBody ls o n).1 = progFrom o mo ∧
      newNos (parseHunkBody ls o n).1 = progFrom n mn := by
  induction ls generalizing o n with
  | nil => exact ⟨0, 0, by simp [parseHunkBody, oldNos, newNos, progFrom]⟩
  | cons hline rest ih =>
    rw [parseHunkBody]
    split
    · exact ⟨0, 0, by simp [oldNos, newNos, progFrom]⟩
    · split
      · exact ih o n ho hn
      · have hmod : ∀ m : Nat, (m + 1) % U32LIM < U32LIM :=
          fun m => Nat.mod_lt _ (by decide)
        split
        · obtain ⟨mo, mn, h1, h2⟩ := ih o ((n + 1) % U32LIM) ho (hmod n)
          refine ⟨mo, mn + 1, ?_, ?_⟩
          · simpa [oldNos] using h1
          · rw [progFrom_succ n mn hn]
            simpa [newNos] using h2
        · obtain ⟨mo, mn, h1, h2⟩ := ih ((o + 1) % U32LIM) n (hmod o) hn
          refine ⟨mo + 1, mn, ?_, ?_⟩
          · rw [progFrom_succ o mo ho]
            simpa [oldNos] using h1
          · simpa [newNos] using h2
        · obtain ⟨mo, mn, h1, h2⟩ := ih ((o + 1) % U32LIM) ((n + 1) % U32LIM) (hmod o) (hmod n)
          refine ⟨mo + 1, mn + 1, ?_, ?_⟩
          · rw [progFrom_succ o mo ho]
            simpa [oldNos] using h1
          · rw [progFrom_succ n mn hn]
            simpa [newNos] using h2
        · exact ih o n ho hn

theorem parseHunkBody_skip_no_nl (rest : List String) (o n : Nat) :
    parseHunkBody (NO_NL :: rest) o n = parseHunkBody rest o n := by
  rw [parseHunkBody]
  rw [if_neg (by decide), if_pos rfl]

/-! ## Invariants of the metadata loop -/

theorem parseHunkBody_rem_suffix (ls : List String) (o n : Nat) :
    (parseHunkBody ls o n).2 <:+ ls := by
  induction ls generalizing o n with
  | nil => simp [parseHunkBody]
  | cons hline rest ih =>
    rw [parseHunkBody]
    split
    · exact List.suffix_refl _
    · split
      · exact (ih o n).trans (List.suffix_cons hline rest)
      · split <;> exact (ih _ _).trans (List.suffix_cons hline rest)

theorem parseMeta_countB (ls : List String) (path : String) (op : Option String)
    (st : FileStatus) :
    ((parseMeta ls path op st).2.countP fun l => strStarts l "diff --git ") =
      ls.countP fun l => strStarts l "diff --git " := by
  induction ls, path, op, st using parseMeta.induct with
  | case1 path op st => simp [parseMeta]
  | case2 l rest path op st h1 => simp [parseMeta, h1]
  | case3 l rest path op st h1 h2 ih =>
    simp [parseMeta, List.countP_cons, *]
  | case4 l rest path op st h1 h2 h3 ih =>
    simp [parseMeta, List.countP_cons, *]
  | case5 l rest path op st h1 h2 h3 dest h4 ih =>
    simp [parseMeta, List.countP_cons, *]
  | case6 l rest path op st h1 h2 h3 h4 dest h5 ih =>
    simp [parseMeta, List.countP_cons, *]
  | case7 l rest path op st h1 h2 h3 h4 h5 h6 =>
    simp [parseMeta, List.countP_cons, *]
  | case8 l rest path op st h1 h2 h3 h4 h5 h6 h7 ih =>
    simp [parseMeta, List.countP_cons, *]
  | case9 l rest path op st h1 h2 h3 h4 h5 h6 h7 h8 ih =>
    simp [parseMeta, List.countP_cons, *]
  | case10 l rest path op st h1 h2 h3 h4 h5 h6 h7 h8 h9 os oc ns nc h10 hb ih =>
    have ih2 : ((parseMeta (parseHunkBody rest os ns).2 path op st).2.countP
          fun x => strStarts x "diff --git ") =
        (parseHunkBody rest os ns).2.countP fun x => strStarts x "diff --git " := ih
    simp [parseMeta, List.countP_cons, parseHunkBody_countB, ih2, h1, h2, h3, h4, h5, h6,
      h7, h8, h9, h10]
  | case11 l rest path op st h1 h2 h3 h4 h5 h6 h7 h8 h9 h10 ih =>
    simp [parseMeta, List.countP_cons, *]
  | case12 l rest path op st h1 h2 h3 h4 h5 h6 h7 h8 h9 ih =>
    simp [parseMeta, List.countP_cons, *]

theorem parseMeta_append (ls ls₂ : List String) (l : String)
    (hl : strStarts l "diff --git " = true) (path : String) (op : Option String)
    (st : FileStatus) :
    parseMeta (ls ++ l :: ls₂) path op st =
      ((parseMeta ls path op st).1, (parseMeta ls path op st).2 ++ l :: ls₂) := by
  have hstop : stopTok l = true := by simp [stopTok, hl]
  induction ls, path, op, st using parseMeta.induct with
  | case1 path op st => simp [parseMeta, hl]
  | case2 l' rest path op st h1 => simp [parseMeta, h1]
  | case3 l' rest path op st h1 h2 ih => simp [parseMeta, *]
  | case4 l' rest path op st h1 h2 h3 ih => simp [parseMeta, *]
  | case5 l' rest path op st h1 h2 h3 dest h4 ih => simp [parseMeta, *]
  | case6 l' rest path op st h1 h2 h3 h4 dest h5 ih => simp [parseMeta, *]
  | case7 l' rest path op st h1 h2 h3 h4 h5 h6 => simp [parseMeta, *]
  | case8 l' rest path op st h1 h2 h3 h4 h5 h6 h7 ih => simp [parseMeta, *]
  | case9 l' rest path op st h1 h2 h3 h4 h5 h6 h7 h8 ih => simp [parseMeta, *]
  | case10 l' rest path op st h1 h2 h3 h4 h5 h6 h7 h8 h9 os oc ns nc h10 hb ih =>
    have ih2 : parseMeta ((parseHunkBody rest os ns).2 ++ l :: ls₂) path op st =
        ((parseMeta (parseHunkBody rest os ns).2 path op st).1,
          (parseMeta (parseHunkBody rest os ns).2 path op st).2 ++ l :: ls₂) := ih
    simp [parseMeta, parseHunkBody_append, ih2, hstop, h1, h2, h3, h4, h5, h6, h7, h8,
      h9, h10]
  | case11 l' rest path op st h1 h2 h3 h4 h5 h6 h7 h8 h9 h10 ih => simp [parseMeta, *]
  | case12 l' rest path op st h1 h2 h3 h4 h5 h6 h7 h8 h9 ih => simp [parseMeta, *]

theorem parseMeta_renamed (ls : List String) (path : String) (op : Option String)
    (st : FileStatus) :
    ∀ _hinv : st = FileStatus.Renamed → op.isSome = true,
    (parseMeta ls path op st).1.status = FileStatus.Renamed →
      (parseMeta ls path op st).1.old_path.isSome = true := by
  induction ls, path, op, st using parseMeta.induct with
  | case1 path op st =>
    intro hinv hren
    rw [parseMeta] at hren ⊢
    exact hinv hren
  | case2 l rest path op st h1 =>
    intro hinv hren
    rw [parseMeta] at hren ⊢
    simp only [h1, if_true] at hren ⊢
    exact hinv hren
  | case3 l rest path op st h1 h2 ih =>
    intro hinv hren
    rw [parseMeta] at hren ⊢
    simp only [h1, h2, Bool.false_eq_true, if_true, if_false] at hren ⊢
    exact ih (fun h => FileStatus.noConfusion h) hren
  | case4 l rest path op st h1 h2 h3 ih =>
    intro hinv hren
    rw [parseMeta] at hren ⊢
    simp only [h1, h2, h3, Bool.false_eq_true, if_true, if_false] at hren ⊢
    exact ih (fun h => FileStatus.noConfusion h) hren
  | case5 l rest path op st h1 h2 h3 dest h4 ih =>
    intro hinv hren
    rw [parseMeta] at hren ⊢
    simp only [h1, h2, h3, h4, Bool.false_eq_true, if_true, if_false] at hren ⊢
    exact ih (fun _ => rfl) hren
  | case6 l rest path op st h1 h2 h3 h4 dest h5 ih =>
    intro hinv hren
    rw [parseMeta] at hren ⊢
    simp only [h1, h2, h3, h4, h5, Bool.false_eq_true, if_true, if_false] at hren ⊢
    exact ih hinv hren
  | case7 l rest path op st h1 h2 h3 h4 h5 h6 =>
    intro hinv hren
    rw [parseMeta] at hren ⊢
    simp only [h1, h2, h3, h4, h5, h6, Bool.false_eq_true, if_true, if_false] at hren ⊢
    exact hinv hren
  | case8 l rest path op st h1 h2 h3 h4 h5 h6 h7 ih =>
    intro hinv hren
    rw [parseMeta] at hren ⊢
    simp only [h1, h2, h3, h4, h5, h6, h7, Bool.false_eq_true, if_true, if_false] at hren ⊢
    exact ih hinv hren
  | case9 l rest path op st h1 h2 h3 h4 h5 h6 h7 h8 ih =>
    intro hinv hren
    rw [parseMeta] at hren ⊢
    simp only [h1, h2, h3, h4, h5, h6, h7, h8, Bool.false_eq_true, if_true, if_false] at hren ⊢
    exact ih hinv hren
  | case10 l rest path op st h1 h2 h3 h4 h5 h6 h7 h8 h9 os oc ns nc h10 hb ih =>
    intro hinv hren
    rw [parseMeta] at hren ⊢
    simp only [h1, h2, h3, h4, h5, h6, h7, h8, h9, h10, Bool.false_eq_true, if_true, if_false] at hren ⊢
    exact ih hinv hren
  | case11 l rest path op st h1 h2 h3 h4 h5 h6 h7 h8 h9 h10 ih =>
    intro hinv hren
    rw [parseMeta] at hren ⊢
    simp only [h1, h2, h3, h4, h5, h6, h7, h8, h9, h10, Bool.false_eq_true, if_true, if_false] at hren ⊢
    exact ih hinv hren
  | case12 l rest path op st h1 h2 h3 h4 h5 h6 h7 h8 h9 ih =>
    intro hinv hren
    rw [parseMeta] at hren ⊢
    simp only [h1, h2, h3, h4, h5, h6, h7, h8, h9, Bool.false_eq_true, if_true, if_false] at hren ⊢
    exact ih hinv hren

theorem parseMeta_path (ls : List String) (path : String) (op : Option String)
    (st : FileStatus) :
    ∀ _h : ∀ x ∈ ls, strStarts x "rename to " = false,
    (parseMeta ls path op st).1.path = path := by
  induction ls, path, op, st using parseMeta.induct with
  | case1 path op st => intro h; rw [parseMeta]
  | case2 l rest path op st h1 =>
    intro h
    rw [parseMeta]
    simp only [h1, if_true]
  | case3 l rest path op st h1 h2 ih =>
    intro h
    rw [parseMeta]
    simp only [h1, h2, Bool.false_eq_true, if_true, if_false]
    exact ih fun x hx => h x (List.mem_cons_of_mem _ hx)
  | case4 l rest path op st h1 h2 h3 ih =>
    intro h
    rw [parseMeta]
    simp only [h1, h2, h3, Bool.false_eq_true, if_true, if_false]
    exact ih fun x hx => h x (List.mem_cons_of_mem _ hx)
  | case5 l rest path op st h1 h2 h3 dest h4 ih =>
    intro h
    rw [parseMeta]
    simp only [h1, h2, h3, h4, Bool.false_eq_true, if_true, if_false]
    exact ih fun x hx => h x (List.mem_cons_of_mem _ hx)
  | case6 l rest path op st h1 h2 h3 h4 dest h5 ih =>
    intro h
    have := (strip?_none_iff "rename to " l).mpr (h l (List.mem_cons_self l rest))
    rw [this] at h5
    exact Option.noConfusion h5
  | case7 l rest path op st h1 h2 h3 h4 h5 h6 =>
    intro h
    rw [parseMeta]
    simp only [h1, h2, h3, h4, h5, h6, Bool.false_eq_true, if_true, if_false]
  | case8 l rest path op st h1 h2 h3 h4 h5 h6 h7 ih =>
    intro h
    rw [parseMeta]
    simp only [h1, h2, h3, h4, h5, h6, h7, Bool.false_eq_true, if_true, if_false]
    exact ih fun x hx => h x (List.mem_cons_of_mem _ hx)
  | case9 l rest path op st h1 h2 h3 h4 h5 h6 h7 h8 ih =>
    intro h
    rw [parseMeta]
    simp only [h1, h2, h3, h4, h5, h6, h7, h8, Bool.false_eq_true, if_true, if_false]
    exact ih fun x hx => h x (List.mem_cons_of_mem _ hx)
  | case10 l rest path op st h1 h2 h3 h4 h5 h6 h7 h8 h9 os oc ns nc h10 hb ih =>
    intro h
    rw [parseMeta]
    simp only [h1, h2, h3, h4, h5, h6, h7, h8, h9, h10, Bool.false_eq_true, if_true, if_false]
    exact ih fun x hx => h x (List.mem_cons_of_mem _
      ((parseHunkBody_rem_suffix rest os ns).subset hx))
  | case11 l rest path op st h1 h2 h3 h4 h5 h6 h7 h8 h9 h10 ih =>
    intro h
    rw [parseMeta]
    simp only [h1, h2, h3, h4, h5, h6, h7, h8, h9, h10, Bool.false_eq_true, if_true, if_false]
    exact ih fun x hx => h x (List.mem_cons_of_mem _ hx)
  | case12 l rest path op st h1 h2 h3 h4 h5 h6 h7 h8 h9 ih =>
    intro h
    rw [parseMeta]
    simp only [h1, h2, h3, h4, h5, h6, h7, h8, h9, Bool.false_eq_true, if_true, if_false]
    exact ih fun x hx => h x (List.mem_cons_of_mem _ hx)

theorem parseMeta_hunks_mem (ls : List String) (path : String) (op : Option String)
    (st : FileStatus) :
    ∀ hk ∈ (parseMeta ls path op st).1.hunks,
      ∃ hdr os oc ns nc body, parse_hunk_header hdr = some (os, oc, ns, nc) ∧
        hk = ⟨hdr, os, oc, ns, nc, (parseHunkBody body os ns).1⟩ := by
  induction ls, path, op, st using parseMeta.induct with
  | case1 path op st => intro hk hmem; rw [parseMeta] at hmem; simp at hmem
  | case2 l rest path op st h1 =>
    intro hk hmem
    rw [parseMeta] at hmem
    simp only [h1, if_true] at hmem
    simp at hmem
  | case3 l rest path op st h1 h2 ih =>
    intro hk hmem
    rw [parseMeta] at hmem
    simp only [h1, h2, Bool.false_eq_true, if_true, if_false] at hmem
    exact ih hk hmem
  | case4 l rest path op st h1 h2 h3 ih =>
    intro hk hmem
    rw [parseMeta] at hmem
    simp only [h1, h2, h3, Bool.false_eq_true, if_true, if_false] at hmem
    exact ih hk hmem
  | case5 l rest path op st h1 h2 h3 dest h4 ih =>
    intro hk hmem
    rw [parseMeta] at hmem
    simp only [h1, h2, h3, h4, Bool.false_eq_true, if_true, if_false] at hmem
    exact ih hk hmem
  | case6 l rest path op st h1 h2 h3 h4 dest h5 ih =>
    intro hk hmem
    rw [parseMeta] at hmem
    simp only [h1, h2, h3, h4, h5, Bool.false_eq_true, if_true, if_false] at hmem
    exact ih hk hmem
  | case7 l rest path op st h1 h2 h3 h4 h5 h6 =>
    intro hk hmem
    rw [parseMeta] at hmem
    simp only [h1, h2, h3, h4, h5, h6, Bool.false_eq_true, if_true, if_false] at hmem
    simp at hmem
  | case8 l rest path op st h1 h2 h3 h4 h5 h6 h7 ih =>
    intro hk hmem
    rw [parseMeta] at hmem
    simp only [h1, h2, h3, h4, h5, h6, h7, Bool.false_eq_true, if_true, if_false] at hmem
    exact ih hk hmem
  | case9 l rest path op st h1 h2 h3 h4 h5 h6 h7 h8 ih =>
    intro hk hmem
    rw [parseMeta] at hmem
    simp only [h1, h2, h3, h4, h5, h6, h7, h8, Bool.false_eq_true, if_true, if_false] at hmem
    exact ih hk hmem
  | case10 l rest path op st h1 h2 h3 h4 h5 h6 h7 h8 h9 os oc ns nc h10 hb ih =>
    intro hk hmem
    rw [parseMeta] at hmem
    simp only [h1, h2, h3, h4, h5, h6, h7, h8, h9, h10, Bool.false_eq_true, if_true, if_false] at hmem
    have hmem2 : hk ∈ (⟨l, os, oc, ns, nc, (parseHunkBody rest os ns).1⟩ : DiffHunk) ::
        (parseMeta (parseHunkBody rest os ns).2 path op st).1.hunks := hmem
    rcases List.mem_cons.mp hmem2 with h | h
    · exact ⟨l, os, oc, ns, nc, rest, h10, h⟩
    · exact ih hk h
  | case11 l rest path op st h1 h2 h3 h4 h5 h6 h7 h8 h9 h10 ih =>
    intro hk hmem
    rw [parseMeta] at hmem
    simp only [h1, h2, h3, h4, h5, h6, h7, h8, h9, h10, Bool.false_eq_true, if_true, if_false] at hmem
    exact ih hk hmem
  | case12 l rest path op st h1 h2 h3 h4 h5 h6 h7 h8 h9 ih =>
    intro hk hmem
    rw [parseMeta] at hmem
    simp only [h1, h2, h3, h4, h5, h6, h7, h8, h9, Bool.false_eq_true, if_true, if_false] at hmem
    exact ih hk hmem

theorem parseU32digits_lt (t : List Char) (v : Nat) (h : parseU32digits t = some v) :
    v < U32LIM := by
  unfold parseU32digits at h
  split at h
  · rename_i hc
    cases h
    exact hc.2.2
  · exact Option.noConfusion h

theorem parseU32_lt (cs : List Char) (v : Nat) (h : parseU32 cs = some v) : v < U32LIM := by
  unfold parseU32 at h
  split at h <;> exact parseU32digits_lt _ _ h

theorem parseU32_getD_lt (cs : List Char) : (parseU32 cs).getD 0 < U32LIM := by
  cases hp : parseU32 cs with
  | none => decide
  | some v => simpa using parseU32_lt _ _ hp

theorem parse_range_fst_lt (r : List Char) : (parse_range r).1 < U32LIM := by
  unfold parse_range
  split
  · exact parseU32_getD_lt _
  · exact parseU32_getD_lt _

theorem parse_hunk_header_lt (l : String) (os oc ns nc : Nat)
    (h : parse_hunk_header l = some (os, oc, ns, nc)) :
    os < U32LIM ∧ ns < U32LIM := by
  unfold parse_hunk_header at h
  split at h
  · exact Option.noConfusion h
  · split at h
    · exact Option.noConfusion h
    · split at h
      · split at h
        · simp only [Option.some.injEq, Prod.mk.injEq] at h
          obtain ⟨h1, _, h3, _⟩ := h
          exact ⟨h1 ▸ parse_range_fst_lt _, h3 ▸ parse_range_fst_lt _⟩
        · exact Option.noConfusion h
      · exact Option.noConfusion h

/-- Inside a file block, a `Binary files` line reached in metadata position
before any hunk header stops the block with no hunks recorded, leaving the
cursor on the `Binary files` line itself. -/
theorem parseMeta_binary (ls₁ : List String) (l : String) (ls₂ : List String)
    (hbin : strStarts l "Binary files" = true)
    (hfree : ∀ x ∈ ls₁, strStarts x "diff --git " = false ∧ strStarts x "@@ " = false ∧
      strStarts x "Binary files" = false) :
    ∀ (path : String) (op : Option String) (st : FileStatus),
      (parseMeta (ls₁ ++ l :: ls₂) path op st).1.hunks = [] ∧
      (parseMeta (ls₁ ++ l :: ls₂) path op st).2 = l :: ls₂ := by
  induction ls₁ with
  | nil =>
    intro path op st
    have e1 : strStarts l "diff --git " = false :=
      strStarts_excl l "Binary files" "diff --git " (by decide) (by decide) (by decide) hbin
    have e2 : strStarts l "new file mode" = false :=
      strStarts_excl l "Binary files" "new file mode" (by decide) (by decide) (by decide) hbin
    have e3 : strStarts l "deleted file mode" = false :=
      strStarts_excl l "Binary files" "deleted file mode" (by decide) (by decide) (by decide) hbin
    have e4 : strip? "rename from " l = none :=
      (strip?_none_iff _ _).mpr
        (strStarts_excl l "Binary files" "rename from " (by decide) (by decide) (by decide) hbin)
    have e5 : strip? "rename to " l = none :=
      (strip?_none_iff _ _).mpr
        (strStarts_excl l "Binary files" "rename to " (by decide) (by decide) (by decide) hbin)
    rw [List.nil_append, parseMeta]
    simp only [e1, e2, e3, e4, e5, hbin, Bool.false_eq_true, if_true, if_false]
    exact ⟨trivial, trivial⟩
  | cons x xs ih =>
    intro path op st
    obtain ⟨hx1, hx2, hx3⟩ := hfree x (List.mem_cons_self x xs)
    have ih2 := ih (fun y hy => hfree y (List.mem_cons_of_mem _ hy))
    rw [List.cons_append, parseMeta]
    by_cases c2 : strStarts x "new file mode" = true
    · simp only [hx1, c2, Bool.false_eq_true, if_true, if_false]
      exact ih2 path op FileStatus.Added
    · by_cases c3 : strStarts x "deleted file mode" = true
      · simp only [hx1, c2, c3, Bool.false_eq_true, if_true, if_false]
        exact ih2 path op FileStatus.Deleted
      · cases c4 : strip? "rename from " x with
        | some fr =>
          simp only [hx1, c2, c3, c4, Bool.false_eq_true, if_true, if_false]
          exact ih2 path (some fr) FileStatus.Renamed
        | none =>
          cases c5 : strip? "rename to " x with
          | some dest =>
            simp only [hx1, c2, c3, c4, c5, Bool.false_eq_true, if_true, if_false]
            exact ih2 dest op st
          | none =>
            by_cases c7 : strStarts x "--- " = true
            · simp only [hx1, c2, c3, c4, c5, hx3, c7, Bool.false_eq_true, if_true, if_false]
              exact ih2 path op st
            · by_cases c8 : strStarts x "+++ " = true
              · simp only [hx1, c2, c3, c4, c5, hx3, c7, c8, Bool.false_eq_true,
                  if_true, if_false]
                exact ih2 path op st
              · simp only [hx1, c2, c3, c4, c5, hx3, c7, c8, hx2, Bool.false_eq_true,
                  if_true, if_false]
                exact ih2 path op st

/-! ## Invariants of the outer loop -/

theorem parseFiles_length (ls : List String) :
    (parseFiles ls).length = ls.countP fun l => strStarts l "diff --git " := by
  induction ls using parseFiles.induct with
  | case1 => simp [parseFiles]
  | case2 l rest h fr ih =>
    have ih2 : (parseFiles (parseMeta rest (extractPath l) none FileStatus.Modified).2).length =
        ((parseMeta rest (extractPath l) none FileStatus.Modified).2.countP
          fun x => strStarts x "diff --git ") := ih
    rw [parseFiles]
    simp only [h, if_true, List.length_cons]
    rw [ih2, parseMeta_countB, List.countP_cons, h]
    simp
  | case3 l rest h ih =>
    rw [parseFiles]
    simp only [h, Bool.false_eq_true, if_false]
    rw [ih, List.countP_cons]
    simp only [Bool.not_eq_true] at h
    simp [h]

theorem parseFiles_append (ls₁ ls₂ : List String) (l : String)
    (hl : strStarts l "diff --git " = true) :
    parseFiles (ls₁ ++ l :: ls₂) = parseFiles ls₁ ++ parseFiles (l :: ls₂) := by
  induction ls₁ using parseFiles.induct with
  | case1 => simp [parseFiles]
  | case2 x rest h fr ih =>
    have ih2 : parseFiles ((parseMeta rest (extractPath x) none FileStatus.Modified).2 ++
          l :: ls₂) =
        parseFiles (parseMeta rest (extractPath x) none FileStatus.Modified).2 ++
          parseFiles (l :: ls₂) := ih
    rw [List.cons_append, parseFiles, parseFiles]
    simp only [h, if_true]
    rw [parseMeta_append _ _ _ hl]
    simp [ih2]
  | case3 x rest h ih =>
    rw [List.cons_append, parseFiles, parseFiles]
    simp only [h, Bool.false_eq_true, if_false]
    exact ih

theorem parseFiles_mem (ls : List String) :
    ∀ f ∈ parseFiles ls, ∃ ls' p, f = (parseMeta ls' p none FileStatus.Modified).1 := by
  induction ls using parseFiles.induct with
  | case1 => intro f hf; simp [parseFiles] at hf
  | case2 x rest h fr ih =>
    intro f hf
    rw [parseFiles] at hf
    simp only [h, if_true] at hf
    have hf2 : f ∈ (parseMeta rest (extractPath x) none FileStatus.Modified).1 ::
        parseFiles (parseMeta rest (extractPath x) none FileStatus.Modified).2 := hf
    rcases List.mem_cons.mp hf2 with hh | hh
    · exact ⟨rest, extractPath x, hh⟩
    · exact ih f hh
  | case3 x rest h ih =>
    intro f hf
    rw [parseFiles] at hf
    simp only [h, Bool.false_eq_true, if_false] at hf
    exact ih f hf

theorem parseFiles_skip (l : String) (rest : List String)
    (h : strStarts l "diff --git " = false) : parseFiles (l :: rest) = parseFiles rest := by
  rw [parseFiles]
  simp [h]

theorem parseMeta_skip_no_nl (rest : List String) (path : String) (op : Option String)
    (st : FileStatus) : parseMeta (NO_NL :: rest) path op st = parseMeta rest path op st := by
  rw [parseMeta]
  simp only [(by decide : strStarts NO_NL "diff --git " = false),
    (by decide : strStarts NO_NL "new file mode" = false),
    (by decide : strStarts NO_NL "deleted file mode" = false),
    (by decide : strip? "rename from " NO_NL = none),
    (by decide : strip? "rename to " NO_NL = none),
    (by decide : strStarts NO_NL "Binary files" = false),
    (by decide : strStarts NO_NL "--- " = false),
    (by decide : strStarts NO_NL "+++ " = false),
    (by decide : strStarts NO_NL "@@ " = false),
    Bool.false_eq_true, if_false]

/-! ## Fuel-based evaluator (structural mirror of the two loops, used to
compute the parser on concrete inputs) -/

/-- Structural (fuel-indexed) version of `parseMeta`; agrees with it whenever
`fuel` is at least the number of input lines. -/
def parseMetaF : Nat → List String → String → Option String → FileStatus →
    DiffFile × List String
  | _, [], path, op, st => (⟨path, op, [], st⟩, [])
  | 0, l :: rest, path, op, st => (⟨path, op, [], st⟩, l :: rest)
  | fuel + 1, l :: rest, path, op, st =>
    if strStarts l "diff --git " then
      (⟨path, op, [], st⟩, l :: rest)
    else if strStarts l "new file mode" then
      parseMetaF fuel rest path op FileStatus.Added
    else if strStarts l "deleted file mode" then
      parseMetaF fuel rest path op FileStatus.Deleted
    else
      match strip? "rename from " l with
      | some fr => parseMetaF fuel rest path (some fr) FileStatus.Renamed
      | none =>
        match strip? "rename to " l with
        | some dest => parseMetaF fuel rest dest op st
        | none =>
          if strStarts l "Binary files" then
            (⟨path, op, [], st⟩, l :: rest)
          else if strStarts l "--- " then
            parseMetaF fuel rest path op st
          else if strStarts l "+++ " then
            parseMetaF fuel rest path op st
          else if strStarts l "@@ " then
            match parse_hunk_header l with
            | some (os, oc, ns, nc) =>
              let hb := parseHunkBody rest os ns
              let fr := parseMetaF fuel hb.2 path op st
              ({ fr.1 with hunks := ⟨l, os, oc, ns, nc, hb.1⟩ :: fr.1.hunks }, fr.2)
            | none => parseMetaF fuel rest path op st
          else
            parseMetaF fuel rest path op st

theorem parseMetaF_eq (ls : List String) (path : String) (op : Option String)
    (st : FileStatus) :
    ∀ fuel, ls.length ≤ fuel → parseMetaF fuel ls path op st = parseMeta ls path op st := by
  induction ls, path, op, st using parseMeta.induct with
  | case1 path op st =>
    intro fuel _
    rw [parseMeta]
    cases fuel <;> rfl
  | case2 l rest path op st h1 =>
    intro fuel hf
    rw [parseMeta]
    cases fuel with
    | zero => simp only [List.length_cons] at hf; omega
    | succ f => simp [parseMetaF, h1]
  | case3 l rest path op st h1 h2 ih =>
    intro fuel hf
    rw [parseMeta]
    cases fuel with
    | zero => simp only [List.length_cons] at hf; omega
    | succ f =>
      simp only [List.length_cons] at hf
      simp only [parseMetaF, h1, h2, Bool.false_eq_true, if_true, if_false]
      rw [ih f (by omega)]
  | case4 l rest path op st h1 h2 h3 ih =>
    intro fuel hf
    rw [parseMeta]
    cases fuel with
    | zero => simp only [List.length_cons] at hf; omega
    | succ f =>
      simp only [List.length_cons] at hf
      simp only [parseMetaF, h1, h2, h3, Bool.false_eq_true, if_true, if_false]
      rw [ih f (by omega)]
  | case5 l rest path op st h1 h2 h3 dest h4 ih =>
    intro fuel hf
    rw [parseMeta]
    cases fuel with
    | zero => simp only [List.length_cons] at hf; omega
    | succ f =>
      simp only [List.length_cons] at hf
      simp only [parseMetaF, h1, h2, h3, h4, Bool.false_eq_true, if_true, if_false]
      rw [ih f (by omega)]
  | case6 l rest path op st h1 h2 h3 h4 dest h5 ih =>
    intro fuel hf
    rw [parseMeta]
    cases fuel with
    | zero => simp only [List.length_cons] at hf; omega
    | succ f =>
      simp only [List.length_cons] at hf
      simp only [parseMetaF, h1, h2, h3, h4, h5, Bool.false_eq_true, if_true, if_false]
      rw [ih f (by omega)]
  | case7 l rest path op st h1 h2 h3 h4 h5 h6 =>
    intro fuel hf
    rw [parseMeta]
    cases fuel with
    | zero => simp only [List.length_cons] at hf; omega
    | succ f =>
      simp only [parseMetaF, h1, h2, h3, h4, h5, h6, Bool.false_eq_true, if_true, if_false]
  | case8 l rest path op st h1 h2 h3 h4 h5 h6 h7 ih =>
    intro fuel hf
    rw [parseMeta]
    cases fuel with
    | zero => simp only [List.length_cons] at hf; omega
    | succ f =>
      simp only [List.length_cons] at hf
      simp only [parseMetaF, h1, h2, h3, h4, h5, h6, h7, Bool.false_eq_true, if_true,
        if_false]
      rw [ih f (by omega)]
  | case9 l rest path op st h1 h2 h3 h4 h5 h6 h7 h8 ih =>
    intro fuel hf
    rw [parseMeta]
    cases fuel with
    | zero => simp only [List.length_cons] at hf; omega
    | succ f =>
      simp only [List.length_cons] at hf
      simp only [parseMetaF, h1, h2, h3, h4, h5, h6, h7, h8, Bool.false_eq_true, if_true,
        if_false]
      rw [ih f (by omega)]
  | case10 l rest path op st h1 h2 h3 h4 h5 h6 h7 h8 h9 os oc ns nc h10 hb ih =>
    intro fuel hf
    rw [parseMeta]
    cases fuel with
    | zero => simp only [List.length_cons] at hf; omega
    | succ f =>
      simp only [List.length_cons] at hf
      have hlen : (parseHunkBody rest os ns).2.length ≤ f :=
        Nat.le_trans (parseHunkBody_rem_le rest os ns) (by omega)
      have ih2 : parseMetaF f (parseHunkBody rest os ns).2 path op st =
          parseMeta (parseHunkBody rest os ns).2 path op st := ih f hlen
      simp only [parseMetaF, h1, h2, h3, h4, h5, h6, h7, h8, h9, h10, Bool.false_eq_true,
        if_true, if_false, ih2]
  | case11 l rest path op st h1 h2 h3 h4 h5 h6 h7 h8 h9 h10 ih =>
    intro fuel hf
    rw [parseMeta]
    cases fuel with
    | zero => simp only [List.length_cons] at hf; omega
    | succ f =>
      simp only [List.length_cons] at hf
      simp only [parseMetaF, h1, h2, h3, h4, h5, h6, h7, h8, h9, h10, Bool.false_eq_true,
        if_true, if_false]
      rw [ih f (by omega)]
  | case12 l rest path op st h1 h2 h3 h4 h5 h6 h7 h8 h9 ih =>
    intro fuel hf
    rw [parseMeta]
    cases fuel with
    | zero => simp only [List.length_cons] at hf; omega
    | succ f =>
      simp only [List.length_cons] at hf
      simp only [parseMetaF, h1, h2, h3, h4, h5, h6, h7, h8, h9, Bool.false_eq_true,
        if_true, if_false]
      rw [ih f (by omega)]

/-- Structural (fuel-indexed) version of `parseFiles`. -/
def parseFilesF : Nat → List String → List DiffFile
  | _, [] => []
  | 0, _ :: _ => []
  | fuel + 1, l :: rest =>
    if strStarts l "diff --git " then
      let fr := parseMetaF rest.length rest (extractPath l) none FileStatus.Modified
      fr.1 :: parseFilesF fuel fr.2
    else
      parseFilesF fuel rest

theorem parseFilesF_eq (ls : List String) :
    ∀ fuel, ls.length ≤ fuel → parseFilesF fuel ls = parseFiles ls := by
  induction ls using parseFiles.induct with
  | case1 =>
    intro fuel _
    rw [parseFiles]
    cases fuel <;> rfl
  | case2 l rest h fr ih =>
    intro fuel hf
    rw [parseFiles]
    cases fuel with
    | zero => simp only [List.length_cons] at hf; omega
    | succ f =>
      simp only [List.length_cons] at hf
      have hmeta : parseMetaF rest.length rest (extractPath l) none FileStatus.Modified =
          parseMeta rest (extractPath l) none FileStatus.Modified :=
        parseMetaF_eq _ _ _ _ _ (Nat.le_refl _)
      have hlen : (parseMeta rest (extractPath l) none FileStatus.Modified).2.length ≤ f :=
        Nat.le_trans (parseMeta_rem_le _ _ _ _) (by omega)
      have ih2 : parseFilesF f (parseMeta rest (extractPath l) none FileStatus.Modified).2 =
          parseFiles (parseMeta rest (extractPath l) none FileStatus.Modified).2 :=
        ih f hlen
      simp only [parseFilesF, h, if_true, hmeta, ih2]
  | case3 l rest h ih =>
    intro fuel hf
    rw [parseFiles]
    cases fuel with
    | zero => simp only [List.length_cons] at hf; omega
    | succ f =>
      simp only [List.length_cons] at hf
      simp only [parseFilesF, h, Bool.false_eq_true, if_true, if_false]
      exact ih f (by omega)

/-- Closed-form evaluator for `parse_unified_diff` on concrete inputs. -/
theorem parse_unified_diff_eval (t : String) :
    parse_unified_diff t = parseFilesF (rustLines t).length (rustLines t) :=
  (parseFilesF_eq (rustLines t) (rustLines t).length (Nat.le_refl _)).symm

/-! ## Concrete inputs used by the claim witnesses and counterexamples -/

/-- A small well-formed one-file diff with a context, a deletion and an
addition line, anchored at `old_start = 3`, `new_start = 5`. -/
def wDiff : String := "diff --git a/w.txt b/w.txt\n@@ -3,2 +5,2 @@\n ctx\n-del\n+add\n"

def wLineCtx : DiffLine := ⟨"ctx", LineType.Context, some 3, some 5⟩

def wLineDel : DiffLine := ⟨"del", LineType.Deletion, some 4, none⟩

def wLineAdd : DiffLine := ⟨"add", LineType.Addition, none, some 6⟩

def wHunk : DiffHunk := ⟨"@@ -3,2 +5,2 @@", 3, 2, 5, 2, [wLineCtx, wLineDel, wLineAdd]⟩

def wFile : DiffFile := ⟨"w.txt", none, [wHunk], FileStatus.Modified⟩

theorem wDiff_parse : parse_unified_diff wDiff = [wFile] := by
  rw [parse_unified_diff_eval]
  decide

/-- A pure-rename diff. -/
def rDiff : String :=
  "diff --git a/old_name.txt b/new_name.txt\nrename from old_name.txt\nrename to new_name.txt\n"

def rFile : DiffFile := ⟨"new_name.txt", some "old_name.txt", [], FileStatus.Renamed⟩

theorem rDiff_parse : parse_unified_diff rDiff = [rFile] := by
  rw [parse_unified_diff_eval]
  decide

/-! ## The claims -/

/-- C1: `parse_unified_diff` returns exactly one `DiffFile` per input line
beginning with `"diff --git "`, in input order (parsing distributes over a
split of the line list at any boundary marker), and parsing the empty string
returns the empty list. -/
theorem claim_C1 :
    (∀ t : String, (parse_unified_diff t).length =
      ((rustLines t).countP fun l => strStarts l "diff --git ")) ∧
    parse_unified_diff "" = [] ∧
    ∀ (ls₁ ls₂ : List String) (l : String), strStarts l "diff --git " = true →
      parseFiles (ls₁ ++ l :: ls₂) = parseFiles ls₁ ++ parseFiles (l :: ls₂) := by
  refine ⟨fun t => parseFiles_length _, ?_, fun ls₁ ls₂ l hl => parseFiles_append _ _ _ hl⟩
  rw [parse_unified_diff_eval]
  decide

/-- Witness for C1 at a concrete split of a concrete input. -/
theorem claim_C1_witness :
    parseFiles (["x"] ++ "diff --git a/a.txt b/a.txt" :: []) =
      parseFiles ["x"] ++ parseFiles ["diff --git a/a.txt b/a.txt"] :=
  claim_C1.2.2 ["x"] [] "diff --git a/a.txt b/a.txt" (by decide)

/-- C2 as stated: within one hunk, old-side numbers are exactly
`old_start, old_start + 1, ...` and new-side numbers are exactly
`new_start, new_start + 1, ...` (plain naturals, no wrap). -/
def claimC2 : Prop := ∀ t : String, ∀ f ∈ parse_unified_diff t, ∀ hk ∈ f.hunks,
  oldNos hk.lines = ((List.range (oldNos hk.lines).length).map fun k => some (hk.old_start + k)) ∧
  newNos hk.lines = ((List.range (newNos hk.lines).length).map fun k => some (hk.new_start + k))

/-- A hunk anchored at `u32::MAX`: the second deletion's `old_line_no` wraps
to `0` instead of becoming `4294967296`. -/
def cexC2 : String := "diff --git a/x b/x\n@@ -4294967295,2 +1,1 @@\n-a\n-b"

/-- C2, counterexample: the claimed un-wrapped progression fails at a hunk
whose `old_start` is `u32::MAX`, because the `u32` counter wraps. -/
theorem claim_C2_counterexample : ¬ claimC2 := by
  intro hC
  have h := hC cexC2
  rw [parse_unified_diff_eval] at h
  revert h
  decide

/-- C2, amended: the progressions hold modulo `2 ^ 32` (the `u32` counter
wraps); on every hunk the old-side numbers are
`old_start, old_start + 1, ... (mod 2 ^ 32)` and analogously for the new side. -/
theorem claim_C2_amended : ∀ t : String, ∀ f ∈ parse_unified_diff t, ∀ hk ∈ f.hunks,
    oldNos hk.lines = progFrom hk.old_start (oldNos hk.lines).length ∧
    newNos hk.lines = progFrom hk.new_start (newNos hk.lines).length := by
  intro t f hf hk hhk
  obtain ⟨ls', p, rfl⟩ := parseFiles_mem _ f hf
  obtain ⟨hdr, os, oc, ns, nc, body, hhdr, rfl⟩ := parseMeta_hunks_mem _ _ _ _ hk hhk
  obtain ⟨hos, hns⟩ := parse_hunk_header_lt _ _ _ _ _ hhdr
  obtain ⟨mo, mn, h1, h2⟩ := parseHunkBody_prog body os ns hos hns
  constructor
  · simp only [h1, progFrom_length]
  · simp only [h2, progFrom_length]

/-- Witness for the amended C2 at a concrete parsed hunk. -/
theorem claim_C2_witness :
    oldNos wHunk.lines = progFrom wHunk.old_start (oldNos wHunk.lines).length ∧
    newNos wHunk.lines = progFrom wHunk.new_start (newNos wHunk.lines).length :=
  claim_C2_amended wDiff wFile (by rw [wDiff_parse]; decide) wHunk (by decide)

/-- C3: every `DiffLine` produced by the parser has `old_line_no` /
`new_line_no` present or absent exactly according to its `line_type`. -/
theorem claim_C3 : ∀ t : String, ∀ f ∈ parse_unified_diff t, ∀ hk ∈ f.hunks,
    ∀ dl ∈ hk.lines,
    (dl.line_type = LineType.Addition →
      dl.old_line_no = none ∧ dl.new_line_no.isSome = true) ∧
    (dl.line_type = LineType.Deletion →
      dl.old_line_no.isSome = true ∧ dl.new_line_no = none) ∧
    (dl.line_type = LineType.Context →
      dl.old_line_no.isSome = true ∧ dl.new_line_no.isSome = true) := by
  intro t f hf hk hhk dl hdl
  obtain ⟨ls', p, rfl⟩ := parseFiles_mem _ f hf
  obtain ⟨hdr, os, oc, ns, nc, body, hhdr, rfl⟩ := parseMeta_hunks_mem _ _ _ _ hk hhk
  exact parseHunkBody_pattern body os ns dl hdl

/-- Witness for C3 at a concrete parsed deletion line. -/
theorem claim_C3_witness :
    (wLineDel.line_type = LineType.Addition →
      wLineDel.old_line_no = none ∧ wLineDel.new_line_no.isSome = true) ∧
    (wLineDel.line_type = LineType.Deletion →
      wLineDel.old_line_no.isSome = true ∧ wLineDel.new_line_no = none) ∧
    (wLineDel.line_type = LineType.Context →
      wLineDel.old_line_no.isSome = true ∧ wLineDel.new_line_no.isSome = true) :=
  claim_C3 wDiff wFile (by rw [wDiff_parse]; decide) wHunk (by decide) wLineDel (by decide)

/-- C4 as stated: `old_path` is set if and only if `status == Renamed`. -/
def claimC4 : Prop := ∀ t : String, ∀ f ∈ parse_unified_diff t,
  (f.old_path.isSome = true ↔ f.status = FileStatus.Renamed)

/-- A block whose `rename from` line is followed by a `new file mode` line:
`old_path` stays set while `status` is overwritten to `Added`. -/
def cexC4 : String := "diff --git a/x b/y\nrename from x\nnew file mode 100644"

/-- C4, counterexample: the "only if" direction fails when a
`new file mode` (or `deleted file mode`) line follows a `rename from` line. -/
theorem claim_C4_counterexample : ¬ claimC4 := by
  intro hC
  have h := hC cexC4
  rw [parse_unified_diff_eval] at h
  revert h
  decide

/-- C4, amended: the "if" direction holds — whenever `status = Renamed`,
`old_path` is set.  (The converse can fail, see the counterexample.) -/
theorem claim_C4_amended : ∀ t : String, ∀ f ∈ parse_unified_diff t,
    f.status = FileStatus.Renamed → f.old_path.isSome = true := by
  intro t f hf hren
  obtain ⟨ls', p, rfl⟩ := parseFiles_mem _ f hf
  exact parseMeta_renamed ls' p none FileStatus.Modified
    (fun h => FileStatus.noConfusion h) hren

/-- Witness for the amended C4 at a concrete renamed file. -/
theorem claim_C4_witness : rFile.old_path.isSome = true :=
  claim_C4_amended rDiff rFile (by rw [rDiff_parse]; decide) (by decide)

/-- C5 as stated (specialised to a single file block forming the whole
input): a block containing a `Binary files` line anywhere yields an empty
hunk list. -/
def claimC5 : Prop := ∀ (m : String) (ls : List String),
  strStarts m "diff --git " = true →
  (∃ b ∈ ls, strStarts b "Binary files" = true) →
  ∀ f ∈ parseFiles (m :: ls), f.hunks = []

def cexC5head : String := "diff --git a/x b/x"

def cexC5rest : List String :=
  ["@@ -1,1 +1,1 @@", " ctx", "Binary files a/x and b/x differ"]

/-- C5, counterexample: a `Binary files` line that appears after a hunk has
started is consumed as an unknown hunk-body line; the already-collected hunk
is kept, so the block has a `Binary files` line and a nonempty hunk list. -/
theorem claim_C5_counterexample : ¬ claimC5 := by
  intro hC
  have h := hC cexC5head cexC5rest (by decide) (by decide)
  rw [show parseFiles (cexC5head :: cexC5rest) =
      parseFilesF 4 (cexC5head :: cexC5rest) from
    (parseFilesF_eq (cexC5head :: cexC5rest) 4 (by decide)).symm] at h
  revert h
  decide

/-- C5, amended: when the `Binary files` line is reached in metadata
position — i.e. no hunk header and no boundary line precedes it in the
block — the file gets an empty hunk list, the scan stops on the binary
line itself, and parsing continues with the rest of the input, so any
later boundary marker still starts a new `DiffFile`. -/
theorem claim_C5_amended : ∀ (b : String) (ls₁ : List String) (l : String) (ls₂ : List String),
    strStarts b "diff --git " = true →
    strStarts l "Binary files" = true →
    (∀ x ∈ ls₁, strStarts x "diff --git " = false ∧ strStarts x "@@ " = false ∧
      strStarts x "Binary files" = false) →
    ∀ (path : String) (op : Option String) (st : FileStatus),
      (parseMeta (ls₁ ++ l :: ls₂) path op st).1.hunks = [] ∧
      (parseMeta (ls₁ ++ l :: ls₂) path op st).2 = l :: ls₂ ∧
      parseFiles (b :: (ls₁ ++ l :: ls₂)) =
        (parseMeta (ls₁ ++ l :: ls₂) (extractPath b) none FileStatus.Modified).1 ::
          parseFiles ls₂ := by
  intro b ls₁ l ls₂ hb hbin hfree path op st
  obtain ⟨h1, h2⟩ := parseMeta_binary ls₁ l ls₂ hbin hfree path op st
  refine ⟨h1, h2, ?_⟩
  obtain ⟨_, h2'⟩ := parseMeta_binary ls₁ l ls₂ hbin hfree (extractPath b) none
    FileStatus.Modified
  rw [parseFiles]
  simp only [hb, if_true]
  rw [h2', parseFiles_skip l ls₂
    (strStarts_excl l "Binary files" "diff --git " (by decide) (by decide) (by decide) hbin)]

/-- Witness for the amended C5 at a concrete binary-file block followed by a
text-file block. -/
theorem claim_C5_witness :
    (parseMeta (["new file mode 100644"] ++
        "Binary files /dev/null and b/i.png differ" :: ["diff --git a/t.txt b/t.txt"])
        "i.png" none FileStatus.Modified).1.hunks = [] ∧
    (parseMeta (["new file mode 100644"] ++
        "Binary files /dev/null and b/i.png differ" :: ["diff --git a/t.txt b/t.txt"])
        "i.png" none FileStatus.Modified).2 =
      "Binary files /dev/null and b/i.png differ" :: ["diff --git a/t.txt b/t.txt"] ∧
    parseFiles ("diff --git a/i.png b/i.png" :: (["new file mode 100644"] ++
        "Binary files /dev/null and b/i.png differ" :: ["diff --git a/t.txt b/t.txt"])) =
      (parseMeta (["new file mode 100644"] ++
          "Binary files /dev/null and b/i.png differ" :: ["diff --git a/t.txt b/t.txt"])
          (extractPath "diff --git a/i.png b/i.png") none FileStatus.Modified).1 ::
        parseFiles ["diff --git a/t.txt b/t.txt"] :=
  claim_C5_amended "diff --git a/i.png b/i.png" ["new file mode 100644"]
    "Binary files /dev/null and b/i.png differ" ["diff --git a/t.txt b/t.txt"]
    (by decide) (by decide) (by decide) "i.png" none FileStatus.Modified

/-- C8: the parser is total by construction (it is a Lean function); its
output is bounded by the input size, and input with no file-boundary marker
is absorbed into an empty result rather than an error. -/
theorem claim_C8 : ∀ t : String,
    (parse_unified_diff t).length ≤ (rustLines t).length ∧
    ((∀ x ∈ rustLines t, strStarts x "diff --git " = false) → parse_unified_diff t = []) := by
  intro t
  constructor
  · show (parseFiles (rustLines t)).length ≤ _
    rw [parseFiles_length]
    exact List.countP_le_length _
  · intro h
    show parseFiles (rustLines t) = []
    have hlen : (parseFiles (rustLines t)).length = 0 := by
      rw [parseFiles_length]
      exact List.countP_eq_zero.mpr fun a ha => by simp [h a ha]
    exact List.length_eq_zero.mp hlen

/-- Witness for C8 on concrete marker-free garbage input. -/
theorem claim_C8_witness : parse_unified_diff "random garbage\nnot a diff" = [] :=
  (claim_C8 "random garbage\nnot a diff").2 (by decide)

/-- C9: a body line equal to `\ No newline at end of file` is skipped in
every parser state: it produces no `DiffLine`, leaves both running counters
unchanged, and is invisible to the metadata and file-scanning loops. -/
theorem claim_C9 :
    (∀ (rest : List String) (o n : Nat),
      parseHunkBody (NO_NL :: rest) o n = parseHunkBody rest o n) ∧
    (∀ (rest : List String) (path : String) (op : Option String) (st : FileStatus),
      parseMeta (NO_NL :: rest) path op st = parseMeta rest path op st) ∧
    (∀ rest : List String, parseFiles (NO_NL :: rest) = parseFiles rest) :=
  ⟨parseHunkBody_skip_no_nl, parseMeta_skip_no_nl,
    fun rest => parseFiles_skip _ _ (by decide)⟩

/-! ## Path extraction: characterisation of `afterLastBSep` -/

theorem stripPre_iff (p : List Char) : ∀ (cs r : List Char),
    stripPre p cs = some r ↔ cs = p ++ r := by
  induction p with
  | nil => intro cs r; simp [stripPre, eq_comm]
  | cons a p ih =>
    intro cs r
    cases cs with
    | nil => simp [stripPre]
    | cons c t =>
      by_cases hac : a = c
      · subst hac
        simp [stripPre, ih]
      · rw [stripPre_cons]
        show (if a = c then stripPre p t else none) = some r ↔ c :: t = a :: p ++ r
        rw [if_neg hac]
        simp only [List.cons_append, List.cons.injEq]
        constructor
        · intro h; exact Option.noConfusion h
        · rintro ⟨h1, _⟩; exact absurd h1.symm hac

theorem stripPre_none_iff (p cs : List Char) :
    stripPre p cs = none ↔ ∀ r, cs ≠ p ++ r := by
  cases hs : stripPre p cs with
  | none =>
    constructor
    · intro _ r hr
      exact absurd ((stripPre_iff p cs r).mpr hr) (by simp [hs])
    · intro _
      rfl
  | some r =>
    constructor
    · intro h; exact Option.noConfusion h
    · intro h
      exact absurd ((stripPre_iff p cs r).mp hs) (h r)

theorem afterLastBSep_some (cs : List Char) : ∀ r,
    afterLastBSep cs = some r → ∃ x, cs = x ++ ' ' :: 'b' :: '/' :: r := by
  induction cs with
  | nil => intro r h; simp [afterLastBSep] at h
  | cons c cs ih =>
    intro r h
    rw [afterLastBSep] at h
    cases htail : afterLastBSep cs with
    | some r2 =>
      rw [htail] at h
      obtain ⟨x, hx⟩ := ih r2 htail
      cases h
      exact ⟨c :: x, by rw [hx, List.cons_append]⟩
    | none =>
      rw [htail] at h
      have := (stripPre_iff [' ', 'b', '/'] (c :: cs) r).mp h
      exact ⟨[], this⟩

theorem afterLastBSep_none (cs : List Char) :
    afterLastBSep cs = none ↔ ¬ ∃ x y, cs = x ++ ' ' :: 'b' :: '/' :: y := by
  induction cs with
  | nil =>
    simp only [afterLastBSep, true_iff]
    rintro ⟨x, y, hxy⟩
    cases x <;> simp at hxy
  | cons c cs ih =>
    rw [afterLastBSep]
    cases htail : afterLastBSep cs with
    | some r =>
      simp only [htail]
      constructor
      · intro h; exact Option.noConfusion h
      · intro h
        obtain ⟨x, hx⟩ := afterLastBSep_some cs r htail
        exact absurd ⟨c :: x, r, by rw [hx, List.cons_append]⟩ h
    | none =>
      simp only [htail]
      constructor
      · intro h
        rintro ⟨x, y, hxy⟩
        cases x with
        | nil =>
          rw [List.nil_append] at hxy
          exact absurd ((stripPre_iff [' ', 'b', '/'] (c :: cs) y).mpr hxy) (by simp [h])
        | cons a x2 =>
          rw [List.cons_append] at hxy
          exact (ih.mp htail) ⟨x2, y, (List.cons.injEq _ _ _ _).mp hxy |>.2⟩
      · intro h
        rw [stripPre_none_iff]
        intro r hr
        exact h ⟨[], r, by rw [List.nil_append]; exact hr⟩

theorem afterLastBSep_last (p : List Char)
    (hp : ¬ ∃ x y, p = x ++ ' ' :: 'b' :: '/' :: y) :
    ∀ pre, afterLastBSep (pre ++ ' ' :: 'b' :: '/' :: p) = some p := by
  intro pre
  induction pre with
  | nil =>
    rw [List.nil_append, afterLastBSep]
    have htail : afterLastBSep ('b' :: '/' :: p) = none := by
      rw [afterLastBSep_none]
      rintro ⟨x, y, hxy⟩
      rcases x with _ | ⟨a, _ | ⟨b2, x2⟩⟩
      · simp at hxy
      · simp at hxy
      · simp only [List.cons_append, List.cons.injEq] at hxy
        exact hp ⟨x2, y, hxy.2.2⟩
    rw [htail]
    exact (stripPre_iff [' ', 'b', '/'] _ p).mpr rfl
  | cons a pre2 ih =>
    rw [List.cons_append, afterLastBSep, ih]

theorem extractPath_of_last (l : String) (pre p : List Char)
    (h : l.data = pre ++ ' ' :: 'b' :: '/' :: p)
    (hp : ¬ ∃ x y, p = x ++ ' ' :: 'b' :: '/' :: y) :
    extractPath l = mkStr p := by
  unfold extractPath
  rw [h, afterLastBSep_last p hp pre]

theorem extractPath_of_no_sep (l : String)
    (h : ¬ ∃ x y, l.data = x ++ ' ' :: 'b' :: '/' :: y) :
    extractPath l = "" := by
  unfold extractPath
  rw [(afterLastBSep_none l.data).mpr h]

/-- C7: for a boundary line containing `" b/"`, the initial path is exactly
the text after the last occurrence of `" b/"` (lossy extraction), and it is
overridden only by a `rename to ` metadata line (absent here by hypothesis). -/
theorem claim_C7 : ∀ (l : String) (ls : List String) (pre p : List Char),
    strStarts l "diff --git " = true →
    l.data = pre ++ ' ' :: 'b' :: '/' :: p →
    (¬ ∃ x y, p = x ++ ' ' :: 'b' :: '/' :: y) →
    (∀ x ∈ ls, strStarts x "rename to " = false) →
    (parseFiles (l :: ls)).head?.map DiffFile.path = some (mkStr p) := by
  intro l ls pre p hl hdec hp hren
  rw [parseFiles]
  simp only [hl, if_true, List.head?_cons, Option.map_some']
  rw [parseMeta_path ls (extractPath l) none FileStatus.Modified hren,
    extractPath_of_last l pre p hdec hp]

/-- Witness for C7 at a concrete boundary line. -/
theorem claim_C7_witness :
    (parseFiles ["diff --git a/a.txt b/w.txt"]).head?.map DiffFile.path =
      some (mkStr "w.txt".data) :=
  claim_C7 "diff --git a/a.txt b/w.txt" [] "diff --git a/a.txt".data "w.txt".data
    (by decide) (by decide) ((afterLastBSep_none "w.txt".data).mp (by decide)) (by decide)

/-- C10: a boundary line with no `" b/"` substring still yields a `DiffFile`,
whose path is the empty string (absent a `rename to ` override). -/
theorem claim_C10 : ∀ (l : String) (ls : List String),
    strStarts l "diff --git " = true →
    (¬ ∃ x y, l.data = x ++ ' ' :: 'b' :: '/' :: y) →
    (∀ x ∈ ls, strStarts x "rename to " = false) →
    (parseFiles (l :: ls)).head?.map DiffFile.path = some "" := by
  intro l ls hl hdec hren
  rw [parseFiles]
  simp only [hl, if_true, List.head?_cons, Option.map_some']
  rw [parseMeta_path ls (extractPath l) none FileStatus.Modified hren,
    extractPath_of_no_sep l hdec]

/-- Witness for C10 at a concrete separator-free boundary line. -/
theorem claim_C10_witness :
    (parseFiles ["diff --git a/x"]).head?.map DiffFile.path = some "" :=
  claim_C10 "diff --git a/x" [] (by decide)
    ((afterLastBSep_none "diff --git a/x".data).mp (by decide)) (by decide)

/-! ## Hunk-header decoding: shape lemmas for C6 -/

theorem beforeAtAt_append (xs : List Char) (ys : List Char) (h : '@' ∉ xs) :
    beforeAtAt (xs ++ ' ' :: '@' :: '@' :: ys) = some xs := by
  induction xs with
  | nil =>
    have hstrip : stripPre [' ', '@', '@'] (' ' :: '@' :: '@' :: ys) = some ys :=
      (stripPre_iff _ _ _).mpr rfl
    rw [List.nil_append, beforeAtAt, hstrip]
    rfl
  | cons c xs2 ih =>
    have h2 : '@' ∉ xs2 := fun hh => h (List.mem_cons_of_mem _ hh)
    have hnot : stripPre [' ', '@', '@'] (c :: (xs2 ++ ' ' :: '@' :: '@' :: ys)) = none := by
      rw [stripPre_none_iff]
      intro r hr
      rw [show ([' ', '@', '@'] : List Char) ++ r = ' ' :: '@' :: '@' :: r from rfl] at hr
      obtain ⟨_, htl⟩ := (List.cons.injEq _ _ _ _).mp hr
      cases xs2 with
      | nil => simp at htl
      | cons a t =>
        rw [List.cons_append] at htl
        obtain ⟨ha, _⟩ := (List.cons.injEq _ _ _ _).mp htl
        exact h2 (ha ▸ List.mem_cons_self a t)
    rw [List.cons_append, beforeAtAt, hnot]
    simp [ih h2]

theorem splitWsAux_token : ∀ (t rest acc : List Char),
    (∀ c ∈ t, rustIsWhitespace c = false) →
    splitWsAux (t ++ rest) acc = splitWsAux rest (t.reverse ++ acc) := by
  intro t
  induction t with
  | nil => intro rest acc _; simp
  | cons c t2 ih =>
    intro rest acc h
    have hc : rustIsWhitespace c = false := h c (List.mem_cons_self c t2)
    rw [List.cons_append, splitWsAux]
    simp only [hc, Bool.false_eq_true, if_false]
    rw [ih rest (c :: acc) fun x hx => h x (List.mem_cons_of_mem _ hx)]
    congr 1
    simp

theorem splitWsAux_space (rest acc : List Char) :
    splitWsAux (' ' :: rest) acc =
      if acc = [] then splitWsAux rest [] else acc.reverse :: splitWsAux rest [] := by
  rw [splitWsAux]
  simp only [(by decide : rustIsWhitespace ' ' = true), if_true]

theorem splitWs_pair (t1 t2 : List Char)
    (h1 : ∀ c ∈ t1, rustIsWhitespace c = false)
    (h2 : ∀ c ∈ t2, rustIsWhitespace c = false)
    (hn1 : t1 ≠ []) (hn2 : t2 ≠ []) :
    splitWs (t1 ++ ' ' :: t2) = [t1, t2] := by
  unfold splitWs
  rw [splitWsAux_token t1 (' ' :: t2) [] h1, List.append_nil, splitWsAux_space,
    if_neg (by simp [hn1]), List.reverse_reverse]
  congr 1
  have htok := splitWsAux_token t2 [] [] h2
  rw [List.append_nil, List.append_nil] at htok
  rw [htok, splitWsAux, if_neg (by simp [hn2]), List.reverse_reverse]

theorem splitOnceComma_append : ∀ (a b : List Char), ',' ∉ a →
    splitOnceComma (a ++ ',' :: b) = some (a, b) := by
  intro a
  induction a with
  | nil =>
    intro b _
    rw [List.nil_append, splitOnceComma, if_pos rfl]
  | cons c a2 ih =>
    intro b h
    have hc : c ≠ ',' := fun hh => h (hh ▸ List.mem_cons_self c a2)
    rw [List.cons_append, splitOnceComma, if_neg hc,
      ih b fun hx => h (List.mem_cons_of_mem _ hx)]
    rfl

theorem splitOnceComma_none : ∀ a : List Char, ',' ∉ a → splitOnceComma a = none := by
  intro a
  induction a with
  | nil => intro _; rfl
  | cons c a2 ih =>
    intro h
    have hc : c ≠ ',' := fun hh => h (hh ▸ List.mem_cons_self c a2)
    rw [splitOnceComma, if_neg hc, ih fun hx => h (List.mem_cons_of_mem _ hx)]
    rfl

theorem parse_range_split (a b : List Char) (h : ',' ∉ a) :
    parse_range (a ++ ',' :: b) = ((parseU32 a).getD 0, (parseU32 b).getD 0) := by
  unfold parse_range
  rw [splitOnceComma_append a b h]

theorem parse_range_nosplit (a : List Char) (h : ',' ∉ a) :
    parse_range a = ((parseU32 a).getD 0, 1) := by
  unfold parse_range
  rw [splitOnceComma_none a h]

/-! ## Decimal rendering of naturals, for the numeric round-trip in C6 -/

def digitChar (d : Nat) : Char :=
  match d with
  | 0 => '0'
  | 1 => '1'
  | 2 => '2'
  | 3 => '3'
  | 4 => '4'
  | 5 => '5'
  | 6 => '6'
  | 7 => '7'
  | 8 => '8'
  | _ => '9'

/-- Big-endian decimal rendering of a natural number. -/
def natChars (n : Nat) : List Char :=
  if n = 0 then ['0'] else ((Nat.digits 10 n).map digitChar).reverse

theorem digitChar_toNat (d : Nat) (h : d < 10) : (digitChar d).toNat - 48 = d := by
  interval_cases d <;> rfl

theorem digitChar_isDigit (d : Nat) (h : d < 10) : (digitChar d).isDigit = true := by
  interval_cases d <;> decide

theorem digitsVal_append (xs : List Char) (c : Char) :
    digitsVal (xs ++ [c]) = digitsVal xs * 10 + (c.toNat - 48) := by
  unfold digitsVal
  rw [List.foldl_append]
  rfl

theorem digitsVal_rev (ds : List Nat) (h : ∀ d ∈ ds, d < 10) :
    digitsVal ((ds.map digitChar).reverse) = Nat.ofDigits 10 ds := by
  induction ds with
  | nil => simp [digitsVal, Nat.ofDigits_nil]
  | cons d ds ih =>
    rw [List.map_cons, List.reverse_cons, digitsVal_append,
      ih fun x hx => h x (List.mem_cons_of_mem _ hx),
      digitChar_toNat d (h d (List.mem_cons_self d ds)), Nat.ofDigits_cons]
    ring

theorem digitsVal_natChars (n : Nat) : digitsVal (natChars n) = n := by
  unfold natChars
  split
  · rename_i h; subst h; rfl
  · rw [digitsVal_rev _ fun d hd => Nat.digits_lt_base (by norm_num) hd,
      Nat.ofDigits_digits]

theorem natChars_ne_nil (n : Nat) : natChars n ≠ [] := by
  unfold natChars
  split
  · simp
  · rename_i h
    simp [Nat.digits_ne_nil_iff_ne_zero, h]

theorem natChars_digits (n : Nat) : ∀ c ∈ natChars n, c.isDigit = true := by
  unfold natChars
  split
  · intro c hc
    rw [List.mem_singleton] at hc
    subst hc
    decide
  · intro c hc
    rw [List.mem_reverse] at hc
    obtain ⟨d, hd, rfl⟩ := List.mem_map.mp hc
    exact digitChar_isDigit d (Nat.digits_lt_base (by norm_num) hd)

theorem natChars_no_comma (n : Nat) : ',' ∉ natChars n := fun h =>
  absurd (natChars_digits n ',' h) (by decide)

theorem parseU32_eq_digits (cs : List Char) (h : cs.head? ≠ some '+') :
    parseU32 cs = parseU32digits cs := by
  unfold parseU32
  split
  · rename_i r
    simp at h
  · rfl

theorem parseU32_natChars (n : Nat) (hn : n < U32LIM) : parseU32 (natChars n) = some n := by
  rw [parseU32_eq_digits]
  · unfold parseU32digits
    rw [if_pos ⟨natChars_ne_nil n, natChars_digits n, by rw [digitsVal_natChars]; exact hn⟩,
      digitsVal_natChars]
  · cases hl : natChars n with
    | nil => exact absurd hl (natChars_ne_nil n)
    | cons c t =>
      have hdig : c.isDigit = true :=
        natChars_digits n c (by rw [hl]; exact List.mem_cons_self c t)
      simp only [List.head?_cons, ne_eq, Option.some.injEq]
      intro hplus
      rw [hplus] at hdig
      exact absurd hdig (by decide)

theorem parse_hunk_header_shape (oldR newR trail : String)
    (hold : ∀ c ∈ oldR.data, rustIsWhitespace c = false ∧ c ≠ '@')
    (hnew : ∀ c ∈ newR.data, rustIsWhitespace c = false ∧ c ≠ '@') :
    parse_hunk_header ("@@ -" ++ oldR ++ " +" ++ newR ++ " @@" ++ trail) =
      some ((parse_range oldR.data).1, (parse_range oldR.data).2,
        (parse_range newR.data).1, (parse_range newR.data).2) := by
  have hdata : ("@@ -" ++ oldR ++ " +" ++ newR ++ " @@" ++ trail).data =
      '@' :: '@' :: ' ' :: ((('-' :: oldR.data) ++ ' ' :: '+' :: newR.data) ++
        ' ' :: '@' :: '@' :: trail.data) := by
    simp only [String.data_append, List.append_assoc]
    rfl
  have hat : '@' ∉ ('-' :: oldR.data) ++ ' ' :: '+' :: newR.data := by
    intro hmem
    rcases List.mem_append.mp hmem with hm | hm
    · rcases List.mem_cons.mp hm with h | h
      · exact absurd h (by decide)
      · exact absurd rfl (hold '@' h).2
    · rcases List.mem_cons.mp hm with h | h
      · exact absurd h (by decide)
      · rcases List.mem_cons.mp h with h2 | h2
        · exact absurd h2 (by decide)
        · exact absurd rfl (hnew '@' h2).2
  have e1 : stripPre ['@', '@', ' ']
      ("@@ -" ++ oldR ++ " +" ++ newR ++ " @@" ++ trail).data =
      some ((('-' :: oldR.data) ++ ' ' :: '+' :: newR.data) ++
        ' ' :: '@' :: '@' :: trail.data) := by
    rw [hdata]
    exact (stripPre_iff _ _ _).mpr rfl
  have e2 : beforeAtAt ((('-' :: oldR.data) ++ ' ' :: '+' :: newR.data) ++
      ' ' :: '@' :: '@' :: trail.data) =
      some (('-' :: oldR.data) ++ ' ' :: '+' :: newR.data) :=
    beforeAtAt_append _ trail.data hat
  have e3 : splitWs (('-' :: oldR.data) ++ ' ' :: ('+' :: newR.data)) =
      ['-' :: oldR.data, '+' :: newR.data] := by
    refine splitWs_pair _ _ ?_ ?_ (by simp) (by simp)
    · intro c hc
      rcases List.mem_cons.mp hc with h | h
      · subst h; decide
      · exact (hold c h).1
    · intro c hc
      rcases List.mem_cons.mp hc with h | h
      · subst h; decide
      · exact (hnew c h).1
  have e4 : stripPre ['-'] ('-' :: oldR.data) = some oldR.data :=
    (stripPre_iff _ _ _).mpr rfl
  have e5 : stripPre ['+'] ('+' :: newR.data) = some newR.data :=
    (stripPre_iff _ _ _).mpr rfl
  unfold parse_hunk_header
  simp only [e1, e2, e3, e4, e5]

/-- C6: hunk-header decoding.  (1) A header of the shape
`@@ -<oldRange> +<newRange> @@<trail>` (ranges free of Unicode whitespace
and of `'@'`) always decodes, each range via `parse_range`; (2)–(3) `parse_range` splits
`start,count` at the first comma and decodes each field with
`str::parse::<u32>`, defaulting an unparseable field to `0` and a missing
count to `1`; (4) numeric fields below `2 ^ 32` decode to themselves. -/
theorem claim_C6 :
    (∀ (oldR newR trail : String),
      (∀ c ∈ oldR.data, rustIsWhitespace c = false ∧ c ≠ '@') →
      (∀ c ∈ newR.data, rustIsWhitespace c = false ∧ c ≠ '@') →
      parse_hunk_header ("@@ -" ++ oldR ++ " +" ++ newR ++ " @@" ++ trail) =
        some ((parse_range oldR.data).1, (parse_range oldR.data).2,
          (parse_range newR.data).1, (parse_range newR.data).2)) ∧
    (∀ (a b : List Char), ',' ∉ a →
      parse_range (a ++ ',' :: b) = ((parseU32 a).getD 0, (parseU32 b).getD 0)) ∧
    (∀ a : List Char, ',' ∉ a → parse_range a = ((parseU32 a).getD 0, 1)) ∧
    (∀ s c : Nat, s < U32LIM → c < U32LIM →
      parse_range (natChars s ++ ',' :: natChars c) = (s, c) ∧
      parse_range (natChars s) = (s, 1)) := by
  refine ⟨parse_hunk_header_shape, parse_range_split, parse_range_nosplit, ?_⟩
  intro s c hs hc
  constructor
  · rw [parse_range_split _ _ (natChars_no_comma s), parseU32_natChars s hs,
      parseU32_natChars c hc]
    rfl
  · rw [parse_range_nosplit _ (natChars_no_comma s), parseU32_natChars s hs]
    rfl

/-- Witness for C6 at a concrete header with a comma-form and a
comma-free range. -/
theorem claim_C6_witness :
    parse_hunk_header ("@@ -" ++ "10,4" ++ " +" ++ "7" ++ " @@" ++ " ctx") =
      some ((parse_range "10,4".data).1, (parse_range "10,4".data).2,
        (parse_range "7".data).1, (parse_range "7".data).2) :=
  claim_C6.1 "10,4" "7" " ctx" (by decide) (by decide)
